import Mathlib

/-!
Verification of the pycomby structural search-and-replace engine.

The engine is embedded shallowly: Python strings become `List Char`,
the token data model and every engine function are translated from
`pycomby.py`.  Loops that advance an index (the balanced scanner, the
driver loop, template scanning) are written with an explicit fuel
parameter that the wrappers instantiate with a sufficient bound; the
backtracking matcher recurses structurally on the token list, exactly
as the Python recursion advances the token index.
-/

set_option maxRecDepth 10000

namespace Pycomby

/-- Python whitespace characters (the ASCII set used by str.strip and by
the regex class backslash-s). -/
def isPySpace (c : Char) : Bool :=
  c = ' ' || c = '\t' || c = '\n' || c = '\r' || c = Char.ofNat 11 || c = Char.ofNat 12

/-- The single-quote character. -/
def squote : Char := Char.ofNat 39

/-- The backslash character. -/
def bslash : Char := Char.ofNat 92

/-- Python str.strip: drop whitespace from both ends. -/
def pyStrip (l : List Char) : List Char :=
  ((l.dropWhile isPySpace).reverse.dropWhile isPySpace).reverse

/-- Python `sep in s` followed by `s.split(sep, 1)`: split at the first
occurrence of `sep`, or `none` when `sep` does not occur. -/
def splitFirstOn (sep : Char) : List Char → Option (List Char × List Char)
  | [] => none
  | c :: rest =>
    if c = sep then some ([], rest)
    else (splitFirstOn sep rest).map (fun p => (c :: p.1, p.2))

/-- Python str.split(sep) for a one-character separator (used for the
dot-separated operation chains and for path components). -/
def splitOnChar (sep : Char) : List Char → List (List Char)
  | [] => [[]]
  | c :: rest =>
    let r := splitOnChar sep rest
    if c = sep then [] :: r
    else
      match r with
      | [] => [[c]]
      | h :: t => (c :: h) :: t

/-- Python digits 0-9. -/
def isPyDigit (c : Char) : Bool := c.isDigit

/-- Python regex word characters, ASCII model: letters, digits, underscore. -/
def isPyWord (c : Char) : Bool := c.isAlphanum || c = '_'

/-- A compiled user regex, modelled abstractly as a full-match predicate on
the candidate slice. -/
abbrev URegex := List Char → Bool

/-- Errors raised during pattern compilation (ValueError in the source). -/
inductive CompileError where
  | unknownMacro (m : List Char)
  | invalidRegex (pat : List Char)
  deriving DecidableEq, Repr

/-- A hole token: `HoleToken` from the source.  `macroName` holds the raw
identifier to the right of the colon (the source stores the string and
tests membership in the tables at match time); `regex` holds the compiled
inline constraint. -/
structure HoleToken where
  name : Option (List Char)
  macroName : Option (List Char)
  regex : Option URegex
  optional : Bool

/-- A pattern token: literal or hole (`LiteralToken`/`HoleToken` union in
the source; a literal is determined by its text, from which the matcher
is derived). -/
inductive Token where
  | lit (s : List Char)
  | hole (h : HoleToken)

/-- Membership in REGEX_MACROS. -/
def isRegexMacroName (m : List Char) : Bool :=
  m == "digit".toList || m == "word".toList || m == "num".toList

/-- STRUCTURAL_MACROS: open char, close char, inner-only flag. -/
def structuralLookup (m : List Char) : Option (Char × Char × Bool) :=
  if m == ['(', ')'] then some ('(', ')', false)
  else if m == ['[', ']'] then some ('[', ']', false)
  else if m == ['{', '}'] then some ('{', '}', false)
  else if m == ['(', '_', ')'] then some ('(', ')', true)
  else if m == ['[', '_', ']'] then some ('[', ']', true)
  else if m == ['{', '_', '}'] then some ('{', '}', true)
  else none

/-- Membership in STRUCTURAL_MACROS. -/
def isStructuralName (m : List Char) : Bool := (structuralLookup m).isSome

/-- parse_hole: parse the interior of a hole.  `rc` models re.compile on
the inline regex text (error means the regex does not compile).  Faithful
to the source, including the truthiness tests: an empty regex text is
never compiled, and an empty macro identifier skips the unknown-macro
check. -/
def parseHole (rc : List Char → Except (List Char) URegex) (content : List Char) :
    Except CompileError HoleToken :=
  let optional := content.getLast? == some '?'
  let c1 := if optional then content.dropLast else content
  match splitFirstOn '~' c1 with
  | some (lhs0, rhs0) =>
    let lhs := pyStrip lhs0
    let rhs := pyStrip rhs0
    let name := if lhs != [] && lhs != ['_'] then some lhs else none
    if rhs == [] then .ok ⟨name, none, none, optional⟩
    else
      match rc rhs with
      | .error _ => .error (.invalidRegex rhs)
      | .ok r => .ok ⟨name, none, some r, optional⟩
  | none =>
    match splitFirstOn ':' c1 with
    | some (lhs0, rhs0) =>
      let lhs := pyStrip lhs0
      let rhs := pyStrip rhs0
      let name := if lhs != [] && lhs != ['_'] then some lhs else none
      if rhs != [] && !isRegexMacroName rhs && !isStructuralName rhs then
        .error (.unknownMacro rhs)
      else .ok ⟨name, some rhs, none, optional⟩
    | none =>
      let c := pyStrip c1
      let name := if c != [] && c != ['_'] then some c else none
      .ok ⟨name, none, none, optional⟩

/-- The slice text[i:j] of Python (indices clamped to the string). -/
def slice (t : List Char) (i j : Nat) : List Char := (t.take j).drop i

/-- Bindings: the captures dictionary.  Keys are unique; setting an
existing key replaces its value in place, a new key is appended. -/
abbrev Bindings := List (List Char × Option (List Char))

/-- dict update captures[k] = v. -/
def bindPut (caps : Bindings) (k : List Char) (v : Option (List Char)) : Bindings :=
  if caps.any (fun p => p.1 == k) then
    caps.map (fun p => if p.1 == k then (k, v) else p)
  else caps ++ [(k, v)]

/-- dict lookup: `none` when the key is absent. -/
def bindGet (caps : Bindings) (k : List Char) : Option (Option (List Char)) :=
  (caps.find? (fun p => p.1 == k)).map (·.2)

/-- Length of the run of whitespace characters starting at position i. -/
def wsRun (text : List Char) (i : Nat) : Nat :=
  ((text.drop i).takeWhile isPySpace).length

/-- Anchored match of a compiled literal at position i, returning the end
position of the match.  The compiled literal regex of the source maps
every space of the literal text to a greedy whitespace-star and every
other character to itself; greedy matching tries the longest whitespace
consumption first and backtracks. -/
def litMatchEnd : List Char → List Char → Nat → Option Nat
  | [], _, i => some i
  | c :: ps, text, i =>
    if c = ' ' then
      ((List.range (wsRun text i + 1)).reverse).findSome? (fun j => litMatchEnd ps text (i + j))
    else
      match text[i]? with
      | some tc => if tc = c then litMatchEnd ps text (i + 1) else none
      | none => none

/-- The lexer state of the balanced scanner. -/
inductive LexState where
  | normal
  | instring (q : Char)
  | lineComment
  | blockComment
  deriving DecidableEq, Repr

/-- One step of the balanced scanner: either the closing delimiter at
depth one was found (`done`, the loop returns the next position), or the
scan continues with a new state and depth, advancing by two characters
when `two` is true and one otherwise.  The branch order is exactly the
order of the tests in the source loop body. -/
inductive MbAct where
  | done
  | cont (st : LexState) (depth : Nat) (two : Bool)
  deriving DecidableEq, Repr

/-- The loop body of match_balanced at a character `c` with lookahead
`nxt`. -/
def mbStep (openc closec : Char) (c : Char) (nxt : Option Char) (st : LexState)
    (depth : Nat) : MbAct :=
  match st with
  | .instring q =>
    if c = bslash then .cont (.instring q) depth true
    else if c = q then .cont .normal depth false
    else .cont (.instring q) depth false
  | .lineComment =>
    if c = '\n' then .cont .normal depth false else .cont .lineComment depth false
  | .blockComment =>
    if c = '*' && nxt == some '/' then .cont .normal depth true
    else .cont .blockComment depth false
  | .normal =>
    if c = '/' && nxt == some '/' then .cont .lineComment depth true
    else if c = '/' && nxt == some '*' then .cont .blockComment depth true
    else if c = '"' || c = squote then .cont (.instring c) depth false
    else if c = openc then .cont .normal (depth + 1) false
    else if c = closec then
      (if depth = 1 then .done else .cont .normal (depth - 1) false)
    else .cont .normal depth false

/-- The while-loop of match_balanced.  The loop reads the character at
`pos` (exiting with failure past the end of the text), steps, and
advances; each iteration consumes one fuel.  Any fuel above the number
of remaining characters is sufficient, since every step advances. -/
def mbLoop (text : List Char) (openc closec : Char) :
    Nat → Nat → Nat → LexState → Option Nat
  | 0, _, _, _ => none
  | fuel + 1, pos, depth, st =>
    match text[pos]? with
    | none => none
    | some c =>
      match mbStep openc closec c text[pos + 1]? st depth with
      | .done => some (pos + 1)
      | .cont st2 depth2 two =>
        mbLoop text openc closec fuel (pos + (if two then 2 else 1)) depth2 st2

/-- match_balanced: scan a balanced region starting at position i, with
string- and comment-awareness; returns the position after the closing
delimiter and the captured chunk (delimiters stripped when innerOnly). -/
def matchBalanced (text : List Char) (i : Nat) (openc closec : Char)
    (innerOnly : Bool) : Option (Nat × List Char) :=
  match text[i]? with
  | some c =>
    if c = openc then
      match mbLoop text openc closec (text.length + 1) (i + 1) 1 .normal with
      | none => none
      | some e => some (e, if innerOnly then slice text (i + 1) (e - 1) else slice text i e)
    else none
  | none => none

/-- Full-match semantics of the three REGEX_MACROS, modelled directly:
digit is one or more decimal digits, word is one or more word characters,
num is an optionally signed decimal with optional fraction and exponent. -/
def macroFullMatch (m : List Char) (s : List Char) : Bool :=
  if m == "digit".toList then !s.isEmpty && s.all isPyDigit
  else if m == "word".toList then !s.isEmpty && s.all isPyWord
  else if m == "num".toList then numFullMatch s
  else false
where
  numFullMatch (s : List Char) : Bool :=
    let s1 := match s with
              | c :: rest => if c = '-' || c = '+' then rest else s
              | [] => s
    let d := s1.takeWhile isPyDigit
    if d.isEmpty then false
    else
      let r := s1.dropWhile isPyDigit
      let r2 := match r with
                | '.' :: rest =>
                  let d2 := rest.takeWhile isPyDigit
                  if d2.isEmpty then r else rest.dropWhile isPyDigit
                | _ => r
      match r2 with
      | [] => true
      | e :: rest =>
        if e = 'e' || e = 'E' then
          let rest2 := match rest with
                       | c :: r3 => if c = '-' || c = '+' then r3 else rest
                       | [] => rest
          let d3 := rest2.takeWhile isPyDigit
          !d3.isEmpty && (rest2.dropWhile isPyDigit).isEmpty
        else false

/-- Whether the hole is constrained (a regex macro or an inline regex):
decides the greedy candidate order in match_from. -/
def holeConstrained (h : HoleToken) : Bool :=
  (match h.macroName with
   | some m => isRegexMacroName m
   | none => false) || h.regex.isSome

/-- Python range(start, stop, -1) for naturals: start, start-1, ..., stop+1. -/
def rangeDown (start stop : Nat) : List Nat :=
  (List.range' (stop + 1) (start - stop)).reverse

/-- The candidate end positions a hole tries: greedy (longest first, at
least one character) when constrained, shortest first (empty allowed)
otherwise. -/
def holeCands (n : Nat) (h : HoleToken) (i : Nat) : List Nat :=
  if holeConstrained h then rangeDown n i else List.range' i (n + 1 - i)

/-- Copy-and-bind used on the consuming branch of a non-structural hole. -/
def bindConsume (caps : Bindings) (name : Option (List Char)) (substr : List Char) :
    Bindings :=
  match name with
  | some nm => bindPut caps nm (some substr)
  | none => caps

/-- Copy-and-bind used by the structural branch: the source tests the
name for truthiness, so an empty name is not recorded. -/
def bindStruct (caps : Bindings) (name : Option (List Char)) (chunk : List Char) :
    Bindings :=
  match name with
  | some nm => if nm != [] then bindPut caps nm (some chunk) else caps
  | none => caps

/-- Copy-and-bind used by the optional-skip branch: record the name with
value none only when it is not already bound. -/
def bindSkip (caps : Bindings) (name : Option (List Char)) : Bindings :=
  match name with
  | some nm => if caps.any (fun p => p.1 == nm) then caps else caps ++ [(nm, none)]
  | none => caps

/-- match_from: the recursive backtracking matcher.  Recursion is on the
token list (the source advances the token index in every recursive
call). -/
def matchFrom (text : List Char) : List Token → Nat → Bindings → Option (Nat × Bindings)
  | [], i, caps => some (i, caps)
  | .lit s :: rest, i, caps =>
    match litMatchEnd s text i with
    | none => none
    | some j => matchFrom text rest j caps
  | .hole h :: rest, i, caps =>
    match h.macroName.bind structuralLookup with
    | some (oc, cc, inner) =>
      match matchBalanced text i oc cc inner with
      | none => none
      | some (ni, chunk) => matchFrom text rest ni (bindStruct caps h.name chunk)
    | none =>
      match (holeCands text.length h i).findSome? (fun e =>
        let substr := slice text i e
        if (match h.macroName with
            | some m => isRegexMacroName m && !macroFullMatch m substr
            | none => false) then none
        else if (match h.regex with
                 | some r => !r substr
                 | none => false) then none
        else matchFrom text rest e (bindConsume caps h.name substr)) with
      | some r => some r
      | none =>
        if h.optional then matchFrom text rest i (bindSkip caps h.name)
        else none

/-- The consuming branch of a non-structural hole (the candidate loop of
match_from), split out for the statements about optional holes. -/
def holeConsume (text : List Char) (h : HoleToken) (rest : List Token) (i : Nat)
    (caps : Bindings) : Option (Nat × Bindings) :=
  (holeCands text.length h i).findSome? (fun e =>
    let substr := slice text i e
    if (match h.macroName with
        | some m => isRegexMacroName m && !macroFullMatch m substr
        | none => false) then none
    else if (match h.regex with
             | some r => !r substr
             | none => false) then none
    else matchFrom text rest e (bindConsume caps h.name substr))

/-- match_first: try every anchor position from 0 to the length of the
text; the first success wins. -/
def matchFirst (text : List Char) (tokens : List Token) :
    Option ((Nat × Nat) × Bindings) :=
  (List.range (text.length + 1)).findSome? (fun s =>
    (matchFrom text tokens s []).map (fun p => ((s, p.1), p.2)))

/-- Python int() on a string: optional surrounding whitespace, optional
sign, one or more digits. -/
def pyInt (v : List Char) : Option Int :=
  let s := pyStrip v
  let p : Bool × List Char :=
    match s with
    | '-' :: r => (true, r)
    | '+' :: r => (false, r)
    | _ => (false, s)
  if p.2 ≠ [] && p.2.all isPyDigit then
    let n : Nat := p.2.foldl (fun a c => a * 10 + (c.toNat - '0'.toNat)) 0
    some (if p.1 then -(n : Int) else (n : Int))
  else none

/-- pathlib name: the last path component (empty and dot components are
normalised away). -/
def pyPathName (p : List Char) : List Char :=
  (((splitOnChar '/' p).filter (fun s => s ≠ [] && s ≠ ['.'])).getLast?).getD []

/-- Index of the last dot of a component, when it is neither the first
nor the last character (the pathlib suffix rule). -/
def pySuffixIdx (nm : List Char) : Option Nat :=
  match (nm.reverse).findIdx? (fun c => c == '.') with
  | some k =>
    let i := nm.length - 1 - k
    if 0 < i && i < nm.length - 1 then some i else none
  | none => none

/-- pathlib stem. -/
def pyStem (p : List Char) : List Char :=
  let nm := pyPathName p
  match pySuffixIdx nm with
  | some i => nm.take i
  | none => nm

/-- pathlib suffix with the leading dot stripped. -/
def pyExtension (p : List Char) : List Char :=
  let nm := pyPathName p
  match pySuffixIdx nm with
  | some i => nm.drop (i + 1)
  | none => []

/-- The OPERATIONS table of the renderer.  Each operation returns `none`
when the Python function would raise (int() on a non-number). -/
def opsTable (nm : List Char) : Option (List Char → Option (List Char)) :=
  if nm == "upper".toList then some (fun v => some (v.map Char.toUpper))
  else if nm == "lower".toList then some (fun v => some (v.map Char.toLower))
  else if nm == "capitalize".toList then
    some (fun v => match v with
          | [] => some []
          | c :: rest => some (c.toUpper :: rest.map Char.toLower))
  else if nm == "strip".toList then some (fun v => some (pyStrip v))
  else if nm == "inc".toList then
    some (fun v => (pyInt v).map (fun n => (toString (n + 1)).toList))
  else if nm == "dec".toList then
    some (fun v => (pyInt v).map (fun n => (toString (n - 1)).toList))
  else if nm == "filename".toList then some (fun v => some (pyPathName v))
  else if nm == "basename".toList then some (fun v => some (pyStem v))
  else if nm == "extension".toList then some (fun v => some (pyExtension v))
  else none

/-- Left-to-right fold of the operation chain over the captured value;
`none` when an operation is unknown or raises. -/
def applyOps : List (List Char) → List Char → Option (List Char)
  | [], v => some v
  | op :: rest, v =>
    match opsTable op with
    | none => none
    | some f =>
      match f v with
      | none => none
      | some v2 => applyOps rest v2

/-- The replacer function of render_template for one placeholder
interior: split on dots, look up the capture, fold the operations; any
failure keeps the whole placeholder verbatim. -/
def replacerFn (content : List Char) (caps : Bindings) : List Char :=
  let verbatim := ':' :: '[' :: content ++ [']']
  match splitOnChar '.' content with
  | [] => verbatim
  | field :: ops =>
    match bindGet caps field with
    | none => verbatim
    | some none => verbatim
    | some (some v) =>
      match applyOps ops v with
      | none => verbatim
      | some r => r

/-- The scan of render_template: find each leftmost, non-overlapping
placeholder (colon, bracket, one or more non-bracket characters, close
bracket) and replace it; fuel decreases once per step and one more than
the length of the text is always enough. -/
def renderTemplateF (caps : Bindings) : Nat → List Char → List Char
  | 0, t => t
  | fuel + 1, t =>
    match t with
    | ':' :: '[' :: rest =>
      let content := rest.takeWhile (fun c => c != ']')
      if content.isEmpty then ':' :: renderTemplateF caps fuel ('[' :: rest)
      else
        match rest.drop content.length with
        | ']' :: rest2 => replacerFn content caps ++ renderTemplateF caps fuel rest2
        | _ => ':' :: renderTemplateF caps fuel ('[' :: rest)
    | c :: rest => c :: renderTemplateF caps fuel rest
    | [] => []

/-- render_template. -/
def renderTemplate (t : List Char) (caps : Bindings) : List Char :=
  renderTemplateF caps (t.length + 1) t

/-- The textual replacement of the three-dot sugar by an anonymous
wildcard hole, leftmost and non-overlapping as str.replace. -/
def replaceDots : List Char → List Char
  | '.' :: '.' :: '.' :: rest => ':' :: '[' :: '_' :: ']' :: replaceDots rest
  | c :: rest => c :: replaceDots rest
  | [] => []

/-- The scan of compile_pattern: characters between holes accumulate into
one literal token; a hole opening with a closing bracket becomes a hole
token parsed by parse_hole.  Fuel as in the renderer scan. -/
def scanPatternF (rc : List Char → Except (List Char) URegex) :
    Nat → List Char → List Char → Except CompileError (List Token)
  | 0, t, acc => .ok (if (acc ++ t).isEmpty then [] else [.lit (acc ++ t)])
  | fuel + 1, t, acc =>
    match t with
    | ':' :: '[' :: rest =>
      let content := rest.takeWhile (fun c => c != ']')
      match rest.drop content.length with
      | ']' :: rest2 =>
        match parseHole rc content with
        | .error e => .error e
        | .ok h =>
          match scanPatternF rc fuel rest2 [] with
          | .error e => .error e
          | .ok toks =>
            .ok ((if acc.isEmpty then [] else [.lit acc]) ++ (.hole h :: toks))
      | _ => scanPatternF rc fuel ('[' :: rest) (acc ++ [':'])
    | c :: rest => scanPatternF rc fuel rest (acc ++ [c])
    | [] => .ok (if acc.isEmpty then [] else [.lit acc])

/-- compile_pattern. -/
def compilePattern (rc : List Char → Except (List Char) URegex) (pattern : List Char) :
    Except CompileError (List Token) :=
  let p := replaceDots pattern
  scanPatternF rc (p.length + 1) p []

/-- The driver loop of pycomby for both modes, with fuel: `none` means
the fuel was exhausted before the loop terminated.  Query mode appends
the captures and advances past the match (one further on a zero-width
match); replace mode splices the rendered template and sets the offset
to the absolute match start plus the length of the rendered text. -/
def pyLoop (tokens : List Token) (rep : Option (List Char)) :
    Nat → List Char → Nat → List Bindings → Option (List Bindings ⊕ List Char)
  | 0, _, _, _ => none
  | fuel + 1, result, offset, acc =>
    match matchFirst (result.drop offset) tokens with
    | none =>
      some (match rep with
            | none => .inl acc
            | some _ => .inr result)
    | some ((s, e), caps) =>
      match rep with
      | none =>
        pyLoop tokens rep fuel result
          (if e = s then offset + e + 1 else offset + e) (acc ++ [caps])
      | some rt =>
        let ms := offset + s
        let me2 := offset + e
        let rend := renderTemplate rt caps
        pyLoop tokens rep fuel (result.take ms ++ rend ++ result.drop me2)
          (ms + rend.length) acc

/-- pycomby: all-matches query or replace.  The outer Except carries the
compile errors; the inner Option is fuel exhaustion of the driver loop. -/
def pycomby (rc : List Char → Except (List Char) URegex) (fuel : Nat)
    (text pattern : List Char) (rep : Option (List Char)) :
    Except CompileError (Option (List Bindings ⊕ List Char)) :=
  match compilePattern rc pattern with
  | .error e => .error e
  | .ok tokens =>
    if tokens.isEmpty then
      .ok (some (match rep with
                 | none => .inl []
                 | some _ => .inr text))
    else .ok (pyLoop tokens rep fuel text 0 [])

/-- pycomby_single: first-match query or replace.  On a failed search the
source keeps the failure span (0, 0) and the emptied captures and still
splices the rendered replacement there. -/
def pycombySingle (rc : List Char → Except (List Char) URegex)
    (text pattern : List Char) (rep : Option (List Char)) :
    Except CompileError (Bindings ⊕ List Char) :=
  match compilePattern rc pattern with
  | .error e => .error e
  | .ok tokens =>
    if tokens.isEmpty then
      .ok (match rep with
           | none => .inl []
           | some _ => .inr text)
    else
      let r := matchFirst text tokens
      let se : Nat × Nat := match r with
                            | some (p, _) => p
                            | none => (0, 0)
      let caps : Bindings := match r with
                             | some (_, c) => c
                             | none => []
      match rep with
      | none => .ok (.inl caps)
      | some rt =>
        .ok (.inr (text.take se.1 ++ renderTemplate rt caps ++ text.drop se.2))

/-! ### Helper lemmas about slices, ranges and searches -/

theorem slice_self (t : List Char) (i : Nat) : slice t i i = [] := by
  apply List.drop_eq_nil_of_le
  simp [List.length_take]

theorem drop_take_append (l : List Char) (i j : Nat) (hij : i ≤ j) :
    (l.take j).drop i ++ l.drop j = l.drop i := by
  conv_rhs => rw [← List.take_append_drop j l]
  rw [List.drop_append_eq_append_drop]
  rcases le_or_lt i (l.take j).length with hle | hlt
  · have h0 : i - (l.take j).length = 0 := by omega
    rw [h0, List.drop_zero]
  · have h1 : (l.take j).length = min j l.length := List.length_take ..
    have hlen : l.length < i := by
      rw [h1] at hlt
      omega
    have e1 : (l.take j).drop i = [] := List.drop_eq_nil_of_le (by omega)
    have e2 : l.drop j = [] := List.drop_eq_nil_of_le (by omega)
    simp [e1, e2]

theorem slice_append (t : List Char) {i j k : Nat} (hij : i ≤ j) (hjk : j ≤ k) :
    slice t i j ++ slice t j k = slice t i k := by
  unfold slice
  have h1 : t.take j = (t.take k).take j := by
    rw [List.take_take]
    congr 1
    omega
  rw [h1, drop_take_append (t.take k) i j hij]

theorem slice_cons (t : List Char) {i j : Nat} {c : Char} (hc : t[i]? = some c)
    (hij : i < j) : slice t i j = c :: slice t (i + 1) j := by
  unfold slice
  obtain ⟨hlt, he⟩ := List.getElem?_eq_some_iff.mp hc
  have hlen : i < (t.take j).length := by
    simp only [List.length_take]
    omega
  rw [List.drop_eq_getElem_cons hlen]
  congr 1
  have h2 : (t.take j)[i]? = some c := by
    rw [List.getElem?_take]
    simp [hij, hc]
  obtain ⟨h3, h4⟩ := List.getElem?_eq_some_iff.mp h2
  exact h4

theorem slice_snoc (t : List Char) {i j : Nat} {c : Char} (hc : t[j - 1]? = some c)
    (h1 : i ≤ j - 1) (h2 : 0 < j) : slice t i j = slice t i (j - 1) ++ [c] := by
  obtain ⟨m, rfl⟩ : ∃ m, j = m + 1 := ⟨j - 1, by omega⟩
  simp only [Nat.add_sub_cancel] at hc h1 ⊢
  unfold slice
  rw [List.take_succ, hc, List.drop_append_eq_append_drop]
  have hlt : m < t.length := (List.getElem?_eq_some_iff.mp hc).1
  have hlen : (t.take m).length = m := by
    simp only [List.length_take]
    omega
  have h0 : i - (t.take m).length = 0 := by omega
  rw [h0]
  simp

theorem mem_rangeDown {start stop e : Nat} :
    e ∈ rangeDown start stop ↔ stop + 1 ≤ e ∧ e ≤ start := by
  unfold rangeDown
  rw [List.mem_reverse, List.mem_range'_1]
  omega

theorem mem_holeCands {n : Nat} {h : HoleToken} {i e : Nat}
    (he : e ∈ holeCands n h i) : i ≤ e ∧ e ≤ n := by
  unfold holeCands at he
  split at he
  · have := mem_rangeDown.mp he
    omega
  · have := List.mem_range'_1.mp he
    omega

/-- The greedy candidate list as the specification words it: from `top`
counting down, `k` candidates. -/
def specGreedy : Nat → Nat → List Nat
  | 0, _ => []
  | k + 1, top => top :: specGreedy k (top - 1)

theorem range'_reverse_eq_specGreedy : ∀ (k s : Nat),
    (List.range' s k).reverse = specGreedy k (s + k - 1) := by
  intro k
  induction k with
  | zero => intro s; rfl
  | succ m ih =>
    intro s
    rw [List.range'_concat]
    simp only [List.reverse_append, List.reverse_cons, List.reverse_nil, List.nil_append,
      List.cons_append, List.singleton_append]
    rw [ih s]
    show (s + 1 * m) :: specGreedy m (s + m - 1) = specGreedy (m + 1) (s + (m + 1) - 1)
    simp only [specGreedy]
    have e1 : s + 1 * m = s + (m + 1) - 1 := by omega
    have e2 : s + m - 1 = s + (m + 1) - 1 - 1 := by omega
    rw [e1, e2]

theorem rangeDown_eq_specGreedy (n i : Nat) :
    rangeDown n i = specGreedy (n - i) n := by
  by_cases h : n - i = 0
  · simp [rangeDown, h, specGreedy]
  · unfold rangeDown
    rw [range'_reverse_eq_specGreedy]
    congr 1
    omega

theorem mem_specGreedy : ∀ {k top e : Nat}, e ∈ specGreedy k top →
    top + 1 - k ≤ e ∧ e ≤ top := by
  intro k
  induction k with
  | zero => intro top e he; simp [specGreedy] at he
  | succ m ih =>
    intro top e he
    simp only [specGreedy, List.mem_cons] at he
    rcases he with rfl | he
    · omega
    · have := ih he
      omega

theorem findSome?_map {α β γ : Type} (l : List α) (f : α → Option β) (g : β → γ) :
    (l.findSome? f).map g = l.findSome? (fun a => (f a).map g) := by
  induction l with
  | nil => rfl
  | cons a as ih =>
    rw [List.findSome?_cons, List.findSome?_cons]
    cases f a <;> simp [ih]

theorem splitFirstOn_append {sep : Char} {pre post : List Char} (h : sep ∉ pre) :
    splitFirstOn sep (pre ++ sep :: post) = some (pre, post) := by
  induction pre with
  | nil => simp [splitFirstOn]
  | cons c pre ih =>
    simp only [List.mem_cons, not_or] at h
    have h1 : ¬c = sep := fun hh => h.1 hh.symm
    simp only [List.cons_append, splitFirstOn, if_neg h1, List.append_eq, ih h.2,
      Option.map_some]
    rfl

theorem splitFirstOn_eq_none {sep : Char} {l : List Char} (h : sep ∉ l) :
    splitFirstOn sep l = none := by
  induction l with
  | nil => rfl
  | cons c rest ih =>
    simp only [List.mem_cons, not_or] at h
    have h1 : ¬c = sep := fun hh => h.1 hh.symm
    simp [splitFirstOn, h1, ih h.2]

theorem takeWhile_ne_of_not_mem {x : Char} {l : List Char} (h : x ∉ l) :
    l.takeWhile (fun c => c != x) = l := by
  induction l with
  | nil => rfl
  | cons c rest ih =>
    simp only [List.mem_cons, not_or] at h
    have h1 : ¬c = x := fun hh => h.1 hh.symm
    simp [List.takeWhile_cons, h1, ih h.2]

/-! ### Claim theorems -/

/-- A concrete regex-compile stub used by concrete instances; the engine
paths exercised never consult it. -/
def rcW : List Char → Except (List Char) URegex := fun _ => .error []

/-- C1: the claim says a failed search with a replacement returns the
input unchanged; the code instead keeps the failure span (0, 0) and the
emptied captures and splices the rendered replacement at position 0.
On text abc, pattern zzz, replacement R the source returns Rabc, not
abc. -/
theorem C1_single_replace_no_match (rc : List Char → Except (List Char) URegex) :
    pycombySingle rc ("abc".toList) ("zzz".toList) (some ("R".toList)) =
      .ok (.inr ("Rabc".toList)) := rfl

theorem pyLoop_wildcard_empty : ∀ fuel,
    pyLoop [Token.hole ⟨none, none, none, false⟩] (some []) fuel [] 0 [] = none := by
  intro fuel
  induction fuel with
  | zero => rfl
  | succ n ih =>
    simp only [pyLoop]
    have hm : matchFirst (List.drop 0 ([] : List Char))
        [Token.hole ⟨none, none, none, false⟩] = some ((0, 0), []) := rfl
    rw [hm]
    exact ih

/-- C2: the claim says the all-matches replace loop always terminates,
even on zero-width matches.  On the empty text with the anonymous
wildcard pattern and the empty replacement the loop state repeats
exactly (the rendered text is empty and the offset stays at the match
start), so the loop never exits: for every amount of fuel the modelled
driver loop is still unfinished. -/
theorem C2_replace_all_diverges (rc : List Char → Except (List Char) URegex)
    (fuel : Nat) :
    pycomby rc fuel [] (":[_]".toList) (some []) = .ok none := by
  have hc : compilePattern rc [':', '[', '_', ']'] =
      .ok [Token.hole ⟨none, none, none, false⟩] := rfl
  simp [pycomby, hc, pyLoop_wildcard_empty fuel]

/-- C7: an empty compiled token list short-circuits all four modes:
all-query returns the empty list, single-query the empty bindings, and
both replace modes the input unchanged. -/
theorem C7_empty_pattern (rc : List Char → Except (List Char) URegex) (fuel : Nat)
    (text pattern rep : List Char)
    (hc : compilePattern rc pattern = .ok []) :
    pycomby rc fuel text pattern none = .ok (some (.inl []))
    ∧ pycomby rc fuel text pattern (some rep) = .ok (some (.inr text))
    ∧ pycombySingle rc text pattern none = .ok (.inl [])
    ∧ pycombySingle rc text pattern (some rep) = .ok (.inr text) := by
  refine ⟨?_, ?_, ?_, ?_⟩ <;> simp [pycomby, pycombySingle, hc]

/-- C7 witness: the empty pattern compiles to the empty token list and
all four modes are no-ops on text t. -/
theorem C7_empty_pattern_witness :
    pycomby rcW 0 ("t".toList) [] none = .ok (some (.inl []))
    ∧ pycomby rcW 0 ("t".toList) [] (some ("r".toList)) = .ok (some (.inr ("t".toList)))
    ∧ pycombySingle rcW ("t".toList) [] none = .ok (.inl [])
    ∧ pycombySingle rcW ("t".toList) [] (some ("r".toList)) = .ok (.inr ("t".toList)) :=
  C7_empty_pattern rcW 0 ("t".toList) [] ("r".toList) rfl

/-- C4 counterexample: the claim says compilation fails with
UnknownMacro even when the identifier after the colon is empty; the
source guards the check with a truthiness test, so the hole interior
x-colon compiles without error to a hole carrying the empty identifier,
although the empty identifier is in neither macro table. -/
theorem C4_counterexample :
    parseHole rcW ("x:".toList) = .ok ⟨some ['x'], some [], none, false⟩
    ∧ isRegexMacroName [] = false ∧ isStructuralName [] = false :=
  ⟨rfl, rfl, rfl⟩

/-- C4 amended: for a hole interior of the form name-colon-identifier,
compilation fails with UnknownMacro whenever the (stripped) identifier
is non-empty and is neither a regex macro nor a structural macro; the
empty identifier is accepted silently. -/
theorem C4_unknown_macro (rc : List Char → Except (List Char) URegex)
    (name ident : List Char)
    (h1 : '~' ∉ name) (h2 : '~' ∉ ident) (h3 : ':' ∉ name)
    (h5 : pyStrip ident = ident)
    (h6 : ident.getLast? ≠ some '?') (h7 : ident ≠ [])
    (h8 : isRegexMacroName ident = false) (h9 : isStructuralName ident = false) :
    parseHole rc (name ++ ':' :: ident) = .error (.unknownMacro ident) := by
  have hlast : (name ++ ':' :: ident).getLast? = ident.getLast? := by
    rw [show (name ++ ':' :: ident) = (name ++ [':']) ++ ident by simp,
      List.getLast?_append]
    cases hi : ident.getLast? with
    | some c => rfl
    | none =>
      exfalso
      rcases ident with _ | ⟨c, rest⟩
      · exact h7 rfl
      · simp [List.getLast?] at hi
  have hopt : ((name ++ ':' :: ident).getLast? == some '?') = false := by
    rw [hlast]
    exact beq_eq_false_iff_ne.mpr h6
  have hs1 : splitFirstOn '~' (name ++ ':' :: ident) = none := by
    apply splitFirstOn_eq_none
    simp only [List.mem_append, List.mem_cons, not_or]
    exact ⟨h1, by decide, h2⟩
  have hs2 : splitFirstOn ':' (name ++ ':' :: ident) = some (name, ident) :=
    splitFirstOn_append h3
  have h7b : (pyStrip ident != []) = true := by
    rw [h5]
    exact bne_iff_ne.mpr h7
  simp only [parseHole, hopt, Bool.false_eq_true, if_false, hs1, hs2, h5, h7b, h8, h9,
    Bool.not_false, Bool.and_self, Bool.true_and, Bool.and_true, if_true]
  rw [if_pos (bne_iff_ne.mpr h7)]

/-- C4 amended witness: the unknown non-empty identifier foo is rejected
at compile time. -/
theorem C4_unknown_macro_witness :
    parseHole rcW ("x".toList ++ ':' :: "foo".toList) =
      .error (.unknownMacro ("foo".toList)) :=
  C4_unknown_macro rcW ("x".toList) ("foo".toList) (by decide) (by decide) (by decide)
    (by decide) (by decide) (by decide) (by decide) (by decide)

/-- C10: a hole interior that is a tilde with an empty right-hand side
compiles, for every regex compiler (so no InvalidRegex is ever raised),
to a hole with no macro and no regex constraint; and the matcher treats
any such hole as a plain wildcard, enumerating candidate ends shortest
first from the current position (the empty slice first), with the
optional-skip fallback. -/
theorem C10_tilde_empty_rhs (rc : List Char → Except (List Char) URegex)
    (name : List Char) (h1 : '~' ∉ name) (h4 : pyStrip name = name) :
    parseHole rc (name ++ ['~']) =
      .ok ⟨if name != [] && name != ['_'] then some name else none, none, none, false⟩
    ∧ ∀ (text : List Char) (rest : List Token) (i : Nat) (caps : Bindings)
        (h : HoleToken), h.macroName = none → h.regex = none →
        matchFrom text (.hole h :: rest) i caps =
          match (List.range' i (text.length + 1 - i)).findSome? (fun e =>
              matchFrom text rest e (bindConsume caps h.name (slice text i e))) with
          | some r => some r
          | none =>
            if h.optional then matchFrom text rest i (bindSkip caps h.name)
            else none := by
  constructor
  · have hopt : ((name ++ ['~']).getLast? == some '?') = false := by
      rw [List.getLast?_concat]
      decide
    have hs1 : splitFirstOn '~' (name ++ ['~']) = some (name, []) :=
      splitFirstOn_append h1
    simp only [parseHole, hopt, Bool.false_eq_true, if_false, hs1, h4]
    rfl
  · intro text rest i caps h hm hr
    simp only [matchFrom, hm, Option.none_bind, holeCands, holeConstrained, hr,
      Option.isSome_none, Bool.or_false, Bool.false_eq_true, if_false]

/-- C10 witness: the hole interior x-tilde compiles to a named,
unconstrained, non-optional hole for the always-failing regex compiler,
and such a hole is matched by the shortest-first wildcard enumeration. -/
theorem C10_tilde_empty_rhs_witness :
    parseHole rcW ("x".toList ++ ['~']) =
      .ok ⟨if "x".toList != [] && "x".toList != ['_'] then some ("x".toList) else none,
           none, none, false⟩
    ∧ (matchFrom ("a".toList)
        (.hole ⟨some ("x".toList), none, none, false⟩ :: []) 0 [] =
        match (List.range' 0 (("a".toList).length + 1 - 0)).findSome? (fun e =>
            matchFrom ("a".toList) [] e
              (bindConsume [] (some ("x".toList)) (slice ("a".toList) 0 e))) with
        | some r => some r
        | none =>
          if false then matchFrom ("a".toList) [] 0 (bindSkip [] (some ("x".toList)))
          else none) := by
  have h := C10_tilde_empty_rhs rcW ("x".toList) (by decide) (by decide)
  exact ⟨h.1, h.2 ("a".toList) [] 0 [] ⟨some ("x".toList), none, none, false⟩ rfl rfl⟩

theorem matchFrom_hole_nonstructural (text : List Char) (h : HoleToken)
    (rest : List Token) (i : Nat) (caps : Bindings)
    (hns : h.macroName.bind structuralLookup = none) :
    matchFrom text (.hole h :: rest) i caps =
      match holeConsume text h rest i caps with
      | some r => some r
      | none =>
        if h.optional then matchFrom text rest i (bindSkip caps h.name) else none := by
  simp only [matchFrom, hns]
  rfl

/-- C3 counterexample: the claim says the optional-skip fallback applies
to holes of every kind, including structural holes.  For the optional
structural hole on a text without the opening delimiter the source
fails the branch without trying the skip, so no match is found at any
anchor; yet the skip itself, had it been attempted, would have
succeeded with the hole name bound to none. -/
theorem C3_counterexample :
    matchFirst ("a".toList)
      [Token.hole ⟨some ("x".toList), some ['(', ')'], none, true⟩] = none
    ∧ matchFrom ("a".toList) [] 0 (bindSkip [] (some ("x".toList))) =
        some (0, [("x".toList, none)]) := by
  constructor <;> decide

/-- C3 amended: for every non-structural hole (constrained or wildcard),
when no consuming candidate leads to a full match and the hole is
optional, the matcher recurses at the same position after recording the
hole name (if any and not already bound) with value none; structural
holes instead fail their branch on scanner failure without attempting
the skip. -/
theorem C3_optional_skip (text : List Char) (h : HoleToken) (rest : List Token)
    (i : Nat) (caps : Bindings)
    (hns : h.macroName.bind structuralLookup = none)
    (hcons : holeConsume text h rest i caps = none)
    (hopt : h.optional = true) :
    matchFrom text (.hole h :: rest) i caps =
      matchFrom text rest i (bindSkip caps h.name) := by
  rw [matchFrom_hole_nonstructural text h rest i caps hns, hcons, hopt]
  simp

/-- C3 amended witness: the optional digit hole on text ab has no
consuming candidate, so matching it equals matching the rest at the
same position with x skipped. -/
theorem C3_optional_skip_witness :
    matchFrom ("ab".toList)
      [Token.hole ⟨some ("x".toList), some ("digit".toList), none, true⟩] 0 [] =
      matchFrom ("ab".toList) [] 0 (bindSkip [] (some ("x".toList))) :=
  C3_optional_skip ("ab".toList)
    ⟨some ("x".toList), some ("digit".toList), none, true⟩ [] 0 [] rfl (by decide) rfl

/-- The full-match constraint of a constrained hole, as the
specification words it: the macro class (when a regex macro is named)
and the inline regex (when present) must both accept the whole slice. -/
def holeConstraintOk (h : HoleToken) (s : List Char) : Bool :=
  (match h.macroName with
   | some m => !isRegexMacroName m || macroFullMatch m s
   | none => true)
  && (match h.regex with
      | some r => r s
      | none => true)

theorem holeConsume_constrained_eq (text : List Char) (h : HoleToken)
    (rest : List Token) (i : Nat) (caps : Bindings)
    (hcon : holeConstrained h = true) :
    holeConsume text h rest i caps =
      (specGreedy (text.length - i) text.length).findSome? (fun e =>
        if holeConstraintOk h (slice text i e) then
          matchFrom text rest e (bindConsume caps h.name (slice text i e))
        else none) := by
  unfold holeConsume holeCands
  rw [if_pos hcon, rangeDown_eq_specGreedy]
  congr 1
  funext e
  cases hm : h.macroName with
  | none =>
    cases hr : h.regex with
    | none => simp [holeConstraintOk, hm, hr]
    | some r =>
      cases hC : r (slice text i e) <;> simp [holeConstraintOk, hm, hr, hC]
  | some m =>
    cases hr : h.regex with
    | none =>
      cases hA : isRegexMacroName m <;>
        cases hB : macroFullMatch m (slice text i e) <;>
          simp [holeConstraintOk, hm, hr, hA, hB]
    | some r =>
      cases hA : isRegexMacroName m <;>
        cases hB : macroFullMatch m (slice text i e) <;>
          cases hC : r (slice text i e) <;>
            simp [holeConstraintOk, hm, hr, hA, hB, hC]

/-- C6: a constrained, non-structural hole is matched by enumerating
candidate end positions greedy-first from the text length down to the
position after the current one (so it never consumes the empty slice),
accepting the first candidate whose slice passes the anchored full-match
constraint and from whose end the rest of the tokens match. -/
theorem C6_constrained_hole (text : List Char) (h : HoleToken) (rest : List Token)
    (i : Nat) (caps : Bindings)
    (hns : h.macroName.bind structuralLookup = none)
    (hcon : holeConstrained h = true) :
    (matchFrom text (.hole h :: rest) i caps =
      match (specGreedy (text.length - i) text.length).findSome? (fun e =>
          if holeConstraintOk h (slice text i e) then
            matchFrom text rest e (bindConsume caps h.name (slice text i e))
          else none) with
      | some r => some r
      | none =>
        if h.optional then matchFrom text rest i (bindSkip caps h.name) else none)
    ∧ (∀ e ∈ specGreedy (text.length - i) text.length, i + 1 ≤ e ∧ e ≤ text.length)
    ∧ (i < text.length →
        (specGreedy (text.length - i) text.length).head? = some text.length) := by
  refine ⟨?_, ?_, ?_⟩
  · rw [matchFrom_hole_nonstructural text h rest i caps hns,
      holeConsume_constrained_eq text h rest i caps hcon]
  · intro e he
    by_cases hin : i ≤ text.length
    · have h2 := mem_specGreedy he
      omega
    · have h0 : text.length - i = 0 := by omega
      rw [h0] at he
      simp [specGreedy] at he
  · intro hlt
    have h0 : text.length - i = (text.length - i - 1) + 1 := by omega
    rw [h0]
    rfl

/-- C6 witness: the digit hole on text 12 with no further tokens. -/
theorem C6_constrained_hole_witness :
    (matchFrom ("12".toList)
        (.hole ⟨some ("x".toList), some ("digit".toList), none, false⟩ :: []) 0 [] =
      match (specGreedy (("12".toList).length - 0) ("12".toList).length).findSome?
          (fun e =>
            if holeConstraintOk ⟨some ("x".toList), some ("digit".toList), none, false⟩
                 (slice ("12".toList) 0 e) then
              matchFrom ("12".toList) [] e
                (bindConsume [] (some ("x".toList)) (slice ("12".toList) 0 e))
            else none) with
      | some r => some r
      | none =>
        if false then matchFrom ("12".toList) [] 0 (bindSkip [] (some ("x".toList)))
        else none)
    ∧ (∀ e ∈ specGreedy (("12".toList).length - 0) ("12".toList).length,
        0 + 1 ≤ e ∧ e ≤ ("12".toList).length)
    ∧ (0 < ("12".toList).length →
        (specGreedy (("12".toList).length - 0) ("12".toList).length).head? =
          some ("12".toList).length) :=
  C6_constrained_hole ("12".toList)
    ⟨some ("x".toList), some ("digit".toList), none, false⟩ [] 0 [] rfl rfl

/-- Join parts with dots: the inverse of the renderer split, used to
state what a placeholder interior of the form name.op1.op2 is. -/
def joinDots : List (List Char) → List Char
  | [] => []
  | [p] => p
  | p :: ps => p ++ '.' :: joinDots ps

theorem splitOnChar_no_sep {sep : Char} {l : List Char} (h : sep ∉ l) :
    splitOnChar sep l = [l] := by
  induction l with
  | nil => rfl
  | cons c rest ih =>
    simp only [List.mem_cons, not_or] at h
    have h1 : ¬c = sep := fun hh => h.1 hh.symm
    simp [splitOnChar, h1, ih h.2]

theorem splitOnChar_sep_append {sep : Char} {pre l : List Char} (h : sep ∉ pre) :
    splitOnChar sep (pre ++ sep :: l) = pre :: splitOnChar sep l := by
  induction pre with
  | nil => simp [splitOnChar]
  | cons c pre ih =>
    simp only [List.mem_cons, not_or] at h
    have h1 : ¬c = sep := fun hh => h.1 hh.symm
    simp only [List.cons_append, splitOnChar, if_neg h1, List.append_eq, ih h.2]

theorem splitOnChar_joinDots : ∀ (parts : List (List Char)), parts ≠ [] →
    (∀ p ∈ parts, '.' ∉ p) → splitOnChar '.' (joinDots parts) = parts := by
  intro parts
  induction parts with
  | nil => intro h; exact absurd rfl h
  | cons p ps ih =>
    intro _ hd
    cases ps with
    | nil => exact splitOnChar_no_sep (hd p (by simp))
    | cons q qs =>
      show splitOnChar '.' (p ++ '.' :: joinDots (q :: qs)) = p :: (q :: qs)
      rw [splitOnChar_sep_append (hd p (by simp))]
      rw [ih (by simp) (fun r hr => hd r (by simp [hr]))]

theorem mem_joinDots : ∀ {c : Char} {parts : List (List Char)},
    c ∈ joinDots parts → c = '.' ∨ ∃ p ∈ parts, c ∈ p := by
  intro c parts
  induction parts with
  | nil => intro h; simp [joinDots] at h
  | cons p ps ih =>
    intro h
    cases ps with
    | nil => exact Or.inr ⟨p, by simp, h⟩
    | cons q qs =>
      simp only [joinDots, List.mem_append, List.mem_cons] at h
      rcases h with h | h | h
      · exact Or.inr ⟨p, by simp, h⟩
      · exact Or.inl h
      · rcases ih h with h2 | ⟨r, hr, hcr⟩
        · exact Or.inl h2
        · exact Or.inr ⟨r, List.mem_cons_of_mem p hr, hcr⟩

theorem renderTemplateF_nil (caps : Bindings) (f : Nat) :
    renderTemplateF caps f [] = [] := by
  cases f <;> rfl

theorem renderTemplateF_hole (caps : Bindings) (fuel : Nat) (content rest2 : List Char)
    (hne : content ≠ []) (hnb : ']' ∉ content) :
    renderTemplateF caps (fuel + 1) (':' :: '[' :: content ++ ']' :: rest2) =
      replacerFn content caps ++ renderTemplateF caps fuel rest2 := by
  have ht : (content ++ ']' :: rest2).takeWhile (fun c => c != ']') = content := by
    rw [List.takeWhile_append, takeWhile_ne_of_not_mem hnb]
    simp [List.takeWhile_cons]
  have hd : (content ++ ']' :: rest2).drop content.length = ']' :: rest2 :=
    List.drop_left content (']' :: rest2)
  have hstep : renderTemplateF caps (fuel + 1) (':' :: '[' :: content ++ ']' :: rest2) =
      (if ((content ++ ']' :: rest2).takeWhile (fun c => c != ']')).isEmpty then
        ':' :: renderTemplateF caps fuel ('[' :: (content ++ ']' :: rest2))
      else
        match (content ++ ']' :: rest2).drop
            ((content ++ ']' :: rest2).takeWhile (fun c => c != ']')).length with
        | ']' :: r2 =>
          replacerFn ((content ++ ']' :: rest2).takeWhile (fun c => c != ']')) caps ++
            renderTemplateF caps fuel r2
        | _ => ':' :: renderTemplateF caps fuel ('[' :: (content ++ ']' :: rest2))) := rfl
  rw [hstep, ht, hd]
  rw [if_neg (by simp [List.isEmpty_iff, hne])]
  rfl

/-- C8: a placeholder with interior name.op1.op2 renders verbatim
(including the surrounding colon-bracket frame) when the capture name is
absent or bound to none, or when the left-to-right fold of the
operations fails because an operation is unknown or raises; otherwise it
renders the folded value, never a partially applied one. -/
theorem C8_render_placeholder (name : List Char) (ops : List (List Char))
    (caps : Bindings)
    (hdots : ∀ p ∈ name :: ops, '.' ∉ p)
    (hbr : ∀ p ∈ name :: ops, ']' ∉ p)
    (hne : joinDots (name :: ops) ≠ []) :
    renderTemplate (':' :: '[' :: joinDots (name :: ops) ++ [']']) caps =
      match bindGet caps name with
      | none => ':' :: '[' :: joinDots (name :: ops) ++ [']']
      | some none => ':' :: '[' :: joinDots (name :: ops) ++ [']']
      | some (some v) =>
        match applyOps ops v with
        | none => ':' :: '[' :: joinDots (name :: ops) ++ [']']
        | some r => r := by
  have hnb : ']' ∉ joinDots (name :: ops) := by
    intro hmem
    rcases mem_joinDots hmem with h | ⟨p, hp, hcp⟩
    · exact absurd h (by decide)
    · exact hbr p hp hcp
  have hsplit := splitOnChar_joinDots (name :: ops) (by simp) hdots
  show renderTemplateF caps _ _ = _
  rw [renderTemplateF_hole caps _ (joinDots (name :: ops)) [] hne hnb,
    renderTemplateF_nil, List.append_nil]
  simp only [replacerFn, hsplit]

/-- C8 witness: the placeholder x.upper over the binding x to ab renders
to AB. -/
theorem C8_render_placeholder_witness :
    renderTemplate (':' :: '[' :: joinDots ("x".toList :: ["upper".toList]) ++ [']'])
      [("x".toList, some ("ab".toList))] = "AB".toList := by
  have h := C8_render_placeholder ("x".toList) ["upper".toList]
    [("x".toList, some ("ab".toList))] (by decide) (by decide) (by decide)
  rw [h]
  decide

/-! ### Scanner bounds and matcher instrumentation -/

theorem mbStep_done {openc closec c : Char} {nxt : Option Char} {st : LexState}
    {depth : Nat} (h : mbStep openc closec c nxt st depth = .done) :
    st = .normal ∧ c = closec ∧ depth = 1 := by
  cases st <;> (simp only [mbStep] at h; split_ifs at h <;> simp_all)

theorem mbLoop_bounds {text : List Char} {openc closec : Char} :
    ∀ {fuel pos depth : Nat} {st : LexState} {e : Nat},
    mbLoop text openc closec fuel pos depth st = some e →
    pos < e ∧ e ≤ text.length := by
  intro fuel
  induction fuel with
  | zero => intro pos depth st e h; simp [mbLoop] at h
  | succ n ih =>
    intro pos depth st e h
    simp only [mbLoop] at h
    split at h
    · simp at h
    · rename_i c hpos
      split at h
      · simp only [Option.some_inj] at h
        have hlt := (List.getElem?_eq_some_iff.mp hpos).1
        omega
      · have := ih h
        rename_i st2 d2 two _
        cases two <;> simp at this <;> omega

theorem mbLoop_last {text : List Char} {openc closec : Char} :
    ∀ {fuel pos depth : Nat} {st : LexState} {e : Nat},
    mbLoop text openc closec fuel pos depth st = some e →
    text[e - 1]? = some closec := by
  intro fuel
  induction fuel with
  | zero => intro pos depth st e h; simp [mbLoop] at h
  | succ n ih =>
    intro pos depth st e h
    simp only [mbLoop] at h
    split at h
    · simp at h
    · rename_i c hpos
      split at h
      · rename_i hstep
        simp only [Option.some_inj] at h
        obtain ⟨-, hc, -⟩ := mbStep_done hstep
        subst hc
        have hp : e - 1 = pos := by omega
        rw [hp]
        exact hpos
      · exact ih h

theorem matchBalanced_slice {text : List Char} {i : Nat} {oc cc : Char} {inner : Bool}
    {ni : Nat} {chunk : List Char}
    (h : matchBalanced text i oc cc inner = some (ni, chunk)) :
    (if inner then oc :: chunk ++ [cc] else chunk) = slice text i ni
    ∧ i < ni ∧ ni ≤ text.length := by
  unfold matchBalanced at h
  split at h
  · rename_i c hi
    split at h
    · rename_i hc
      subst hc
      split at h
      · simp at h
      · rename_i e hloop
        simp only [Option.some_inj, Prod.mk.injEq] at h
        obtain ⟨rfl, rfl⟩ := h
        obtain ⟨hlt, hle⟩ := mbLoop_bounds hloop
        have hlast := mbLoop_last hloop
        refine ⟨?_, by omega, hle⟩
        cases inner with
        | false => simp
        | true =>
          simp only [if_true]
          rw [slice_cons text hi (by omega)]
          rw [slice_snoc text hlast (by omega) (by omega)]
          rfl
    · simp at h
  · simp at h

theorem litMatchEnd_ge : ∀ (s text : List Char) (i j : Nat),
    litMatchEnd s text i = some j → i ≤ j := by
  intro s
  induction s with
  | nil =>
    intro text i j h
    simp [litMatchEnd] at h
    omega
  | cons c ps ih =>
    intro text i j h
    simp only [litMatchEnd] at h
    split at h
    · obtain ⟨a, _, hfa⟩ := List.exists_of_findSome?_eq_some h
      have := ih text (i + a) j hfa
      omega
    · split at h
      · split at h
        · have := ih text (i + 1) j h
          omega
        · simp at h
      · simp at h

/-- Concatenation of the per-token consumed chunks. -/
def chunksJoin (chs : List (List Char)) : List Char := chs.foldr (· ++ ·) []

/-- The matcher instrumented to also return, per consumed token in
pattern order, its contribution: the consumed slice for a literal, the
captured slice for a constrained or wildcard hole, the captured chunk
for a structural hole — with the delimiters re-attached around it when
the macro is inner-only — and the empty string for a skipped optional
hole.  The control flow is exactly that of matchFrom. -/
def matchFromC (text : List Char) : List Token → Nat → Bindings →
    Option (Nat × Bindings × List (List Char))
  | [], i, caps => some (i, caps, [])
  | .lit s :: rest, i, caps =>
    match litMatchEnd s text i with
    | none => none
    | some j =>
      (matchFromC text rest j caps).map (fun r => (r.1, r.2.1, slice text i j :: r.2.2))
  | .hole h :: rest, i, caps =>
    match h.macroName.bind structuralLookup with
    | some (oc, cc, inner) =>
      match matchBalanced text i oc cc inner with
      | none => none
      | some (ni, chunk) =>
        (matchFromC text rest ni (bindStruct caps h.name chunk)).map
          (fun r => (r.1, r.2.1, (if inner then oc :: chunk ++ [cc] else chunk) :: r.2.2))
    | none =>
      match (holeCands text.length h i).findSome? (fun e =>
        let substr := slice text i e
        if (match h.macroName with
            | some m => isRegexMacroName m && !macroFullMatch m substr
            | none => false) then none
        else if (match h.regex with
                 | some r => !r substr
                 | none => false) then none
        else (matchFromC text rest e (bindConsume caps h.name substr)).map
          (fun r => (r.1, r.2.1, substr :: r.2.2))) with
      | some r => some r
      | none =>
        if h.optional then
          (matchFromC text rest i (bindSkip caps h.name)).map
            (fun r => (r.1, r.2.1, [] :: r.2.2))
        else none

/-- match_first instrumented with chunks. -/
def matchFirstC (text : List Char) (tokens : List Token) :
    Option ((Nat × Nat) × Bindings × List (List Char)) :=
  (List.range (text.length + 1)).findSome? (fun s =>
    (matchFromC text tokens s []).map (fun r => ((s, r.1), r.2.1, r.2.2)))

/-- The consuming branch of a non-structural hole in the instrumented
matcher. -/
def holeConsumeC (text : List Char) (h : HoleToken) (rest : List Token) (i : Nat)
    (caps : Bindings) : Option (Nat × Bindings × List (List Char)) :=
  (holeCands text.length h i).findSome? (fun e =>
    let substr := slice text i e
    if (match h.macroName with
        | some m => isRegexMacroName m && !macroFullMatch m substr
        | none => false) then none
    else if (match h.regex with
             | some r => !r substr
             | none => false) then none
    else (matchFromC text rest e (bindConsume caps h.name substr)).map
      (fun r => (r.1, r.2.1, substr :: r.2.2)))

theorem matchFromC_hole_nonstructural (text : List Char) (h : HoleToken)
    (rest : List Token) (i : Nat) (caps : Bindings)
    (hns : h.macroName.bind structuralLookup = none) :
    matchFromC text (.hole h :: rest) i caps =
      match holeConsumeC text h rest i caps with
      | some r => some r
      | none =>
        if h.optional then
          (matchFromC text rest i (bindSkip caps h.name)).map
            (fun r => (r.1, r.2.1, [] :: r.2.2))
        else none := by
  simp only [matchFromC, hns]
  rfl

theorem map_ifchain (c1 c2 : Bool) (o : Option (Nat × Bindings × List (List Char)))
    (chunk : List Char) :
    ((if c1 then none
      else if c2 then none
      else o.map (fun r => (r.1, r.2.1, chunk :: r.2.2))).map
        (fun r : Nat × Bindings × List (List Char) => (r.1, r.2.1)))
    = (if c1 then none
       else if c2 then none
       else o.map (fun r : Nat × Bindings × List (List Char) => (r.1, r.2.1))) := by
  cases c1 <;> cases c2 <;> cases o <;> rfl

/-- The instrumented matcher projects onto the matcher: forgetting the
chunks gives exactly matchFrom. -/
theorem matchFromC_proj (text : List Char) : ∀ (toks : List Token) (i : Nat)
    (caps : Bindings),
    (matchFromC text toks i caps).map
      (fun r : Nat × Bindings × List (List Char) => (r.1, r.2.1)) =
      matchFrom text toks i caps := by
  intro toks
  induction toks with
  | nil => intro i caps; rfl
  | cons t rest ih =>
    intro i caps
    cases t with
    | lit s =>
      simp only [matchFromC, matchFrom]
      cases hj : litMatchEnd s text i with
      | none => rfl
      | some j =>
        show ((matchFromC text rest j caps).map
            (fun r => (r.1, r.2.1, slice text i j :: r.2.2))).map
            (fun r : Nat × Bindings × List (List Char) => (r.1, r.2.1))
          = matchFrom text rest j caps
        have h2 := ih j caps
        cases hr : matchFromC text rest j caps with
        | none => rw [hr] at h2; simpa using h2
        | some r0 => rw [hr] at h2; simpa using h2
    | hole hh =>
      cases hsl : hh.macroName.bind structuralLookup with
      | some trip =>
        obtain ⟨oc, cc, inner⟩ := trip
        simp only [matchFromC, matchFrom, hsl]
        cases hmb : matchBalanced text i oc cc inner with
        | none => rfl
        | some pr =>
          obtain ⟨ni, chunk⟩ := pr
          show ((matchFromC text rest ni (bindStruct caps hh.name chunk)).map
              (fun r => (r.1, r.2.1,
                (if inner then oc :: chunk ++ [cc] else chunk) :: r.2.2))).map
              (fun r : Nat × Bindings × List (List Char) => (r.1, r.2.1))
            = matchFrom text rest ni (bindStruct caps hh.name chunk)
          have h2 := ih ni (bindStruct caps hh.name chunk)
          cases hr : matchFromC text rest ni (bindStruct caps hh.name chunk) with
          | none => rw [hr] at h2; simpa using h2
          | some r0 => rw [hr] at h2; simpa using h2
      | none =>
        rw [matchFromC_hole_nonstructural text hh rest i caps hsl,
          matchFrom_hole_nonstructural text hh rest i caps hsl]
        have hcons : (holeConsumeC text hh rest i caps).map
            (fun r : Nat × Bindings × List (List Char) => (r.1, r.2.1)) =
            holeConsume text hh rest i caps := by
          simp only [holeConsumeC, holeConsume]
          rw [findSome?_map]
          congr 1
          funext e
          rw [map_ifchain]
          rw [ih e (bindConsume caps hh.name (slice text i e))]
        cases hE : holeConsumeC text hh rest i caps with
        | some r1 =>
          rw [hE] at hcons
          rw [← hcons]
          rfl
        | none =>
          rw [hE] at hcons
          simp only [Option.map_none'] at hcons
          rw [← hcons]
          cases hopt : hh.optional with
          | false => rfl
          | true =>
            simp only [if_true]
            have h2 := ih i (bindSkip caps hh.name)
            cases hr : matchFromC text rest i (bindSkip caps hh.name) with
            | none => rw [hr] at h2; simpa using h2
            | some r0 => rw [hr] at h2; simpa using h2

theorem matchFirstC_proj (text : List Char) (tokens : List Token) :
    (matchFirstC text tokens).map
      (fun r : (Nat × Nat) × Bindings × List (List Char) => (r.1, r.2.1)) =
      matchFirst text tokens := by
  unfold matchFirstC matchFirst
  rw [findSome?_map]
  congr 1
  funext s
  have h2 := matchFromC_proj text tokens s []
  cases hr : matchFromC text tokens s [] with
  | none =>
    rw [hr] at h2
    simp only [Option.map_none'] at h2 ⊢
    rw [← h2]
    rfl
  | some r0 =>
    rw [hr] at h2
    simp only [Option.map_some'] at h2 ⊢
    rw [← h2]
    rfl

/-- Coverage: a successful instrumented match from position i ending at
the result position covers exactly the slice between them — the chunk
contributions concatenate, in pattern order, to the consumed text. -/
theorem matchFromC_coverage (text : List Char) : ∀ (toks : List Token) (i : Nat)
    (caps : Bindings) {r : Nat × Bindings × List (List Char)},
    matchFromC text toks i caps = some r →
    chunksJoin r.2.2 = slice text i r.1 ∧ i ≤ r.1 := by
  intro toks
  induction toks with
  | nil =>
    intro i caps r h
    simp only [matchFromC, Option.some_inj] at h
    subst h
    exact ⟨(slice_self text i).symm, Nat.le_refl i⟩
  | cons t rest ih =>
    intro i caps r h
    cases t with
    | lit s =>
      simp only [matchFromC] at h
      split at h
      · simp at h
      · rename_i j hj
        cases hr : matchFromC text rest j caps with
        | none => rw [hr] at h; simp at h
        | some r0 =>
          rw [hr] at h
          simp only [Option.map_some', Option.some_inj] at h
          subst h
          obtain ⟨hcov, hle⟩ := ih j caps hr
          have hij := litMatchEnd_ge s text i j hj
          refine ⟨?_, by show i ≤ r0.1; omega⟩
          show chunksJoin (slice text i j :: r0.2.2) = slice text i r0.1
          have hj2 : chunksJoin (slice text i j :: r0.2.2) =
              slice text i j ++ chunksJoin r0.2.2 := rfl
          rw [hj2, hcov]
          exact slice_append text hij hle
    | hole hh =>
      cases hsl : hh.macroName.bind structuralLookup with
      | some trip =>
        obtain ⟨oc, cc, inner⟩ := trip
        simp only [matchFromC, hsl] at h
        split at h
        · simp at h
        · rename_i ni chunk hmb
          cases hr : matchFromC text rest ni (bindStruct caps hh.name chunk) with
          | none => rw [hr] at h; simp at h
          | some r0 =>
            rw [hr] at h
            simp only [Option.map_some', Option.some_inj] at h
            subst h
            obtain ⟨hcov, hle⟩ := ih ni (bindStruct caps hh.name chunk) hr
            obtain ⟨hslice, hlt, hni⟩ := matchBalanced_slice hmb
            constructor
            · show chunksJoin ((if inner then oc :: chunk ++ [cc] else chunk) :: r0.2.2)
                = slice text i r0.1
              have hj2 : chunksJoin ((if inner then oc :: chunk ++ [cc] else chunk)
                    :: r0.2.2)
                  = (if inner then oc :: chunk ++ [cc] else chunk)
                    ++ chunksJoin r0.2.2 := rfl
              rw [hj2, hslice, hcov]
              exact slice_append text (by omega) hle
            · show i ≤ r0.1
              omega
      | none =>
        rw [matchFromC_hole_nonstructural text hh rest i caps hsl] at h
        cases hE : holeConsumeC text hh rest i caps with
        | some r1 =>
          rw [hE] at h
          dsimp only at h
          simp only [Option.some_inj] at h
          subst h
          unfold holeConsumeC at hE
          obtain ⟨a, ha, hfa⟩ := List.exists_of_findSome?_eq_some hE
          dsimp only at hfa
          split at hfa
          · simp at hfa
          · split at hfa
            · simp at hfa
            · cases hr : matchFromC text rest a
                  (bindConsume caps hh.name (slice text i a)) with
              | none => rw [hr] at hfa; simp at hfa
              | some r0 =>
                rw [hr] at hfa
                simp only [Option.map_some', Option.some_inj] at hfa
                subst hfa
                obtain ⟨hcov, hle⟩ := ih a (bindConsume caps hh.name (slice text i a)) hr
                obtain ⟨hia, -⟩ := mem_holeCands ha
                constructor
                · show chunksJoin (slice text i a :: r0.2.2) = slice text i r0.1
                  have hj2 : chunksJoin (slice text i a :: r0.2.2) =
                      slice text i a ++ chunksJoin r0.2.2 := rfl
                  rw [hj2, hcov]
                  exact slice_append text hia hle
                · show i ≤ r0.1
                  omega
        | none =>
          rw [hE] at h
          dsimp only at h
          split at h
          · cases hr : matchFromC text rest i (bindSkip caps hh.name) with
            | none => rw [hr] at h; simp at h
            | some r0 =>
              rw [hr] at h
              simp only [Option.map_some', Option.some_inj] at h
              subst h
              obtain ⟨hcov, hle⟩ := ih i (bindSkip caps hh.name) hr
              refine ⟨?_, by show i ≤ r0.1; omega⟩
              show chunksJoin ([] :: r0.2.2) = slice text i r0.1
              have hj2 : chunksJoin ([] :: r0.2.2) = chunksJoin r0.2.2 := rfl
              rw [hj2, hcov]
          · simp at h

/-- C5 counterexample: the claim says recomposing captured hole values
reconstructs the matched span even for inner-only structural holes.  The
inner-only hole on the bracketed text matches the span 0..3 but captures
only the inner character, so the concatenation of captured values in
pattern order differs from the matched slice although the pattern has no
literal (the space relaxation cannot apply). -/
theorem C5_counterexample :
    matchFirst ("(a)".toList)
      [Token.hole ⟨some ("x".toList), some ['(', '_', ')'], none, false⟩] =
      some ((0, 3), [("x".toList, some ("a".toList))])
    ∧ slice ("(a)".toList) 0 3 = "(a)".toList
    ∧ ("a".toList : List Char) ≠ "(a)".toList := ⟨by decide, by decide, by decide⟩

/-- C5 amended: every successful match of span s..e is covered by the
per-token chunk contributions of the instrumented matcher — the consumed
slice of each literal, the captured slice of each constrained or
wildcard hole, the captured chunk of each structural hole with the
delimiters re-attached around it when the macro is inner-only, and the
empty string for skipped optional holes — whose concatenation in pattern
order is exactly the slice of the text from s to e. -/
theorem C5_coverage (text : List Char) (tokens : List Token) (s e : Nat)
    (caps : Bindings)
    (hm : matchFirst text tokens = some ((s, e), caps)) :
    ∃ chs, matchFirstC text tokens = some ((s, e), caps, chs)
      ∧ chunksJoin chs = slice text s e := by
  have hp := matchFirstC_proj text tokens
  cases hc : matchFirstC text tokens with
  | none =>
    rw [hc] at hp
    simp only [Option.map_none'] at hp
    rw [← hp] at hm
    exact absurd hm (by simp)
  | some r =>
    rw [hc] at hp
    simp only [Option.map_some'] at hp
    rw [← hp] at hm
    simp only [Option.some_inj, Prod.mk.injEq] at hm
    obtain ⟨hse, hcaps⟩ := hm
    unfold matchFirstC at hc
    obtain ⟨a, ha, hfa⟩ := List.exists_of_findSome?_eq_some hc
    cases hK : matchFromC text tokens a [] with
    | none => rw [hK] at hfa; simp at hfa
    | some r0 =>
      rw [hK] at hfa
      simp only [Option.map_some', Option.some_inj] at hfa
      subst hfa
      obtain ⟨hcov, -⟩ := matchFromC_coverage text tokens a [] hK
      have has : a = s := by
        have := congrArg Prod.fst hse
        simpa using this
      have hre : r0.1 = e := by
        have := congrArg Prod.snd hse
        simpa using this
      refine ⟨r0.2.2, ?_, ?_⟩
      · dsimp only at hcaps
        rw [has, hre, hcaps]
      · rw [hcov, has, hre]

/-- C5 amended witness: a literal followed by a wildcard hole on text ab
matches span 0..1 and the chunks concatenate to that slice. -/
theorem C5_coverage_witness : ∃ chs,
    matchFirstC ("ab".toList)
      [Token.lit ("a".toList), Token.hole ⟨some ("x".toList), none, none, false⟩] =
      some ((0, 1), [("x".toList, some [])], chs)
    ∧ chunksJoin chs = slice ("ab".toList) 0 1 :=
  C5_coverage ("ab".toList)
    [Token.lit ("a".toList), Token.hole ⟨some ("x".toList), none, none, false⟩]
    0 1 [("x".toList, some [])] (by decide)

/-- The three delimiter pairs of the structural macro table. -/
def delimPair (oc cc : Char) : Prop :=
  (oc = '(' ∧ cc = ')') ∨ (oc = '[' ∧ cc = ']') ∨ (oc = '{' ∧ cc = '}')

/-- The hypothesis of the scanner-fidelity property: along the scan (the
same stepping as the loop of match_balanced), every occurrence of a
delimiter character — including a character skipped by a string escape —
is seen in the normal lexer state, i.e. the delimiters occur only
outside string literals and comments. -/
def delimsOutside (text : List Char) (oc cc : Char) :
    Nat → Nat → Nat → LexState → Bool
  | 0, _, _, _ => true
  | fuel + 1, pos, depth, st =>
    match text[pos]? with
    | none => true
    | some c =>
      match st with
      | .instring q =>
        if c = oc ∨ c = cc then false
        else if c = bslash then
          (match text[pos + 1]? with
           | some c2 =>
             if c2 = oc ∨ c2 = cc then false
             else delimsOutside text oc cc fuel (pos + 2) depth (.instring q)
           | none => delimsOutside text oc cc fuel (pos + 2) depth (.instring q))
        else if c = q then delimsOutside text oc cc fuel (pos + 1) depth .normal
        else delimsOutside text oc cc fuel (pos + 1) depth (.instring q)
      | .lineComment =>
        if c = oc ∨ c = cc then false
        else if c = '\n' then delimsOutside text oc cc fuel (pos + 1) depth .normal
        else delimsOutside text oc cc fuel (pos + 1) depth .lineComment
      | .blockComment =>
        if c = oc ∨ c = cc then false
        else if c = '*' && text[pos + 1]? == some '/' then
          delimsOutside text oc cc fuel (pos + 2) depth .normal
        else delimsOutside text oc cc fuel (pos + 1) depth .blockComment
      | .normal =>
        if c = '/' && text[pos + 1]? == some '/' then
          delimsOutside text oc cc fuel (pos + 2) depth .lineComment
        else if c = '/' && text[pos + 1]? == some '*' then
          delimsOutside text oc cc fuel (pos + 2) depth .blockComment
        else if c = '"' || c = squote then
          delimsOutside text oc cc fuel (pos + 1) depth (.instring c)
        else if c = oc then delimsOutside text oc cc fuel (pos + 1) (depth + 1) .normal
        else if c = cc then
          (if depth = 1 then true
           else delimsOutside text oc cc fuel (pos + 1) (depth - 1) .normal)
        else delimsOutside text oc cc fuel (pos + 1) depth .normal

theorem count_step_one {text : List Char} {pos e : Nat} {c x : Char}
    (hpos : text[pos]? = some c) (hlt : pos < e) :
    (slice text pos e).count x =
      (slice text (pos + 1) e).count x + (if c = x then 1 else 0) := by
  rw [slice_cons text hpos hlt, List.count_cons]
  by_cases hcx : c = x <;> simp [hcx]

theorem count_glue_one {text : List Char} {pos e depth : Nat} {c oc cc : Char}
    (hpos : text[pos]? = some c) (hlt : pos < e) (hno : c ≠ oc) (hnc : c ≠ cc)
    (ihr : (slice text (pos + 1) e).count cc =
      (slice text (pos + 1) e).count oc + depth) :
    (slice text pos e).count cc = (slice text pos e).count oc + depth := by
  rw [@count_step_one text pos e c cc hpos hlt,
    @count_step_one text pos e c oc hpos hlt]
  simp only [if_neg hno, if_neg hnc]
  omega

theorem count_glue_two {text : List Char} {pos e depth : Nat} {c c2 oc cc : Char}
    (hpos : text[pos]? = some c) (hp1 : text[pos + 1]? = some c2)
    (hlt : pos + 1 < e) (h1 : c ≠ oc) (h2 : c ≠ cc) (h3 : c2 ≠ oc) (h4 : c2 ≠ cc)
    (ihr : (slice text (pos + 2) e).count cc =
      (slice text (pos + 2) e).count oc + depth) :
    (slice text pos e).count cc = (slice text pos e).count oc + depth := by
  apply count_glue_one hpos (by omega) h1 h2
  exact count_glue_one hp1 hlt h3 h4 ihr

theorem count_glue_open {text : List Char} {pos e depth : Nat} {oc cc : Char}
    (hpos : text[pos]? = some oc) (hlt : pos < e) (hne : oc ≠ cc)
    (ihr : (slice text (pos + 1) e).count cc =
      (slice text (pos + 1) e).count oc + (depth + 1)) :
    (slice text pos e).count cc = (slice text pos e).count oc + depth := by
  rw [@count_step_one text pos e oc cc hpos hlt,
    @count_step_one text pos e oc oc hpos hlt]
  have e1 : (if oc = cc then (1 : Nat) else 0) = 0 := by simp [hne]
  have e2 : (if oc = oc then (1 : Nat) else 0) = 1 := by simp
  rw [e1, e2]
  omega

theorem count_glue_close {text : List Char} {pos e depth : Nat} {oc cc : Char}
    (hpos : text[pos]? = some cc) (hlt : pos < e) (hne : oc ≠ cc)
    (hdep : 1 ≤ depth)
    (ihr : (slice text (pos + 1) e).count cc =
      (slice text (pos + 1) e).count oc + (depth - 1)) :
    (slice text pos e).count cc = (slice text pos e).count oc + depth := by
  rw [@count_step_one text pos e cc cc hpos hlt,
    @count_step_one text pos e cc oc hpos hlt]
  have e1 : (if cc = cc then (1 : Nat) else 0) = 1 := by simp
  have e2 : (if cc = oc then (1 : Nat) else 0) = 0 := by simp [Ne.symm hne]
  rw [e1, e2]
  omega

theorem count_done {text : List Char} {pos : Nat} {oc cc : Char}
    (hpos : text[pos]? = some cc) (hne : oc ≠ cc) :
    (slice text pos (pos + 1)).count cc =
      (slice text pos (pos + 1)).count oc + 1 := by
  rw [@count_step_one text pos (pos + 1) cc cc hpos (by omega),
    @count_step_one text pos (pos + 1) cc oc hpos (by omega)]
  rw [slice_self]
  simp [Ne.symm hne]

/-- The depth invariant of the balanced scan: when every delimiter
occurrence along the scan is outside strings and comments, the close
count of the scanned region exceeds the open count by exactly the
starting depth. -/
theorem mbLoop_count {text : List Char} {oc cc : Char}
    (hne : oc ≠ cc) (hq1 : '"' ≠ oc) (hq2 : '"' ≠ cc)
    (hs1 : squote ≠ oc) (hs2 : squote ≠ cc)
    (hsl1 : '/' ≠ oc) (hsl2 : '/' ≠ cc)
    (hst1 : '*' ≠ oc) (hst2 : '*' ≠ cc) :
    ∀ {fuel pos depth : Nat} {st : LexState} {e : Nat},
    1 ≤ depth →
    mbLoop text oc cc fuel pos depth st = some e →
    delimsOutside text oc cc fuel pos depth st = true →
    (slice text pos e).count cc = (slice text pos e).count oc + depth := by
  intro fuel
  induction fuel with
  | zero => intro pos depth st e hdep hL hD; simp [mbLoop] at hL
  | succ n ih =>
    intro pos depth st e hdep hL hD
    simp only [mbLoop] at hL
    simp only [delimsOutside] at hD
    split at hL
    · simp at hL
    · rename_i c hpos
      rw [hpos] at hD
      cases hstep : mbStep oc cc c text[pos + 1]? st depth with
      | done =>
        rw [hstep] at hL
        dsimp only at hL
        simp only [Option.some_inj] at hL
        obtain ⟨hstn, hccc, hd1⟩ := mbStep_done hstep
        subst hccc
        subst hd1
        rw [← hL]
        exact count_done hpos hne
      | cont st2 d2 two =>
        rw [hstep] at hL
        dsimp only at hL
        cases st with
        | instring q =>
          dsimp only at hD
          have hnd : ¬(c = oc ∨ c = cc) := by
            intro hcon
            rw [if_pos hcon] at hD
            simp at hD
          rw [if_neg hnd] at hD
          push_neg at hnd
          simp only [mbStep] at hstep
          split_ifs at hstep with hb hqq
          · injection hstep with i1 i2 i3
            subst i1; subst i2; subst i3
            replace hL : mbLoop text oc cc n (pos + 2) depth (.instring q) = some e := hL
            rw [if_pos hb] at hD
            obtain ⟨hlt2, hle⟩ := mbLoop_bounds hL
            have hp1 : pos + 1 < text.length := by omega
            have hc2 : text[pos + 1]? = some text[pos + 1] :=
              List.getElem?_eq_getElem hp1
            rw [hc2] at hD
            dsimp only at hD
            have hnd2 : ¬(text[pos + 1] = oc ∨ text[pos + 1] = cc) := by
              intro hcon
              rw [if_pos hcon] at hD
              simp at hD
            rw [if_neg hnd2] at hD
            push_neg at hnd2
            exact count_glue_two hpos hc2 (by omega) hnd.1 hnd.2 hnd2.1 hnd2.2
              (ih hdep hL hD)
          · injection hstep with i1 i2 i3
            subst i1; subst i2; subst i3
            replace hL : mbLoop text oc cc n (pos + 1) depth .normal = some e := hL
            rw [if_neg hb, if_pos hqq] at hD
            obtain ⟨hlt2, -⟩ := mbLoop_bounds hL
            exact count_glue_one hpos (by omega) hnd.1 hnd.2 (ih hdep hL hD)
          · injection hstep with i1 i2 i3
            subst i1; subst i2; subst i3
            replace hL : mbLoop text oc cc n (pos + 1) depth (.instring q) = some e := hL
            rw [if_neg hb, if_neg hqq] at hD
            obtain ⟨hlt2, -⟩ := mbLoop_bounds hL
            exact count_glue_one hpos (by omega) hnd.1 hnd.2 (ih hdep hL hD)
        | lineComment =>
          dsimp only at hD
          have hnd : ¬(c = oc ∨ c = cc) := by
            intro hcon
            rw [if_pos hcon] at hD
            simp at hD
          rw [if_neg hnd] at hD
          push_neg at hnd
          simp only [mbStep] at hstep
          split_ifs at hstep with hn
          · injection hstep with i1 i2 i3
            subst i1; subst i2; subst i3
            replace hL : mbLoop text oc cc n (pos + 1) depth .normal = some e := hL
            rw [if_pos hn] at hD
            obtain ⟨hlt2, -⟩ := mbLoop_bounds hL
            exact count_glue_one hpos (by omega) hnd.1 hnd.2 (ih hdep hL hD)
          · injection hstep with i1 i2 i3
            subst i1; subst i2; subst i3
            replace hL : mbLoop text oc cc n (pos + 1) depth .lineComment = some e := hL
            rw [if_neg hn] at hD
            obtain ⟨hlt2, -⟩ := mbLoop_bounds hL
            exact count_glue_one hpos (by omega) hnd.1 hnd.2 (ih hdep hL hD)
        | blockComment =>
          dsimp only at hD
          have hnd : ¬(c = oc ∨ c = cc) := by
            intro hcon
            rw [if_pos hcon] at hD
            simp at hD
          rw [if_neg hnd] at hD
          push_neg at hnd
          simp only [mbStep] at hstep
          split_ifs at hstep with hbe
          · injection hstep with i1 i2 i3
            subst i1; subst i2; subst i3
            replace hL : mbLoop text oc cc n (pos + 2) depth .normal = some e := hL
            rw [if_pos hbe] at hD
            simp only [Bool.and_eq_true, decide_eq_true_eq, beq_iff_eq] at hbe
            obtain ⟨hcs, hnx⟩ := hbe
            obtain ⟨hlt2, -⟩ := mbLoop_bounds hL
            exact count_glue_two hpos hnx (by omega) hnd.1 hnd.2 hsl1 hsl2
              (ih hdep hL hD)
          · injection hstep with i1 i2 i3
            subst i1; subst i2; subst i3
            replace hL : mbLoop text oc cc n (pos + 1) depth .blockComment = some e := hL
            rw [if_neg hbe] at hD
            obtain ⟨hlt2, -⟩ := mbLoop_bounds hL
            exact count_glue_one hpos (by omega) hnd.1 hnd.2 (ih hdep hL hD)
        | normal =>
          dsimp only at hD
          simp only [mbStep] at hstep
          split_ifs at hstep with h1 h2 h3 h4 h5 h6
          · injection hstep with i1 i2 i3
            subst i1; subst i2; subst i3
            replace hL : mbLoop text oc cc n (pos + 2) depth .lineComment = some e := hL
            rw [if_pos h1] at hD
            simp only [Bool.and_eq_true, decide_eq_true_eq, beq_iff_eq] at h1
            obtain ⟨hcs, hnx⟩ := h1
            subst hcs
            obtain ⟨hlt2, -⟩ := mbLoop_bounds hL
            exact count_glue_two hpos hnx (by omega) hsl1 hsl2 hsl1 hsl2
              (ih hdep hL hD)
          · injection hstep with i1 i2 i3
            subst i1; subst i2; subst i3
            replace hL : mbLoop text oc cc n (pos + 2) depth .blockComment = some e := hL
            rw [if_neg h1, if_pos h2] at hD
            simp only [Bool.and_eq_true, decide_eq_true_eq, beq_iff_eq] at h2
            obtain ⟨hcs, hnx⟩ := h2
            subst hcs
            obtain ⟨hlt2, -⟩ := mbLoop_bounds hL
            exact count_glue_two hpos hnx (by omega) hsl1 hsl2 hst1 hst2
              (ih hdep hL hD)
          · injection hstep with i1 i2 i3
            subst i1; subst i2; subst i3
            replace hL : mbLoop text oc cc n (pos + 1) depth (.instring c) = some e := hL
            rw [if_neg h1, if_neg h2, if_pos h3] at hD
            simp only [Bool.or_eq_true, decide_eq_true_eq] at h3
            have hcno : c ≠ oc := by
              rcases h3 with rfl | rfl
              · exact hq1
              · exact hs1
            have hcnc : c ≠ cc := by
              rcases h3 with rfl | rfl
              · exact hq2
              · exact hs2
            obtain ⟨hlt2, -⟩ := mbLoop_bounds hL
            exact count_glue_one hpos (by omega) hcno hcnc (ih hdep hL hD)
          · injection hstep with i1 i2 i3
            subst i1; subst i2; subst i3
            replace hL : mbLoop text oc cc n (pos + 1) (depth + 1) .normal = some e := hL
            rw [if_neg h1, if_neg h2, if_neg h3, if_pos h4] at hD
            subst h4
            obtain ⟨hlt2, -⟩ := mbLoop_bounds hL
            exact count_glue_open hpos (by omega) hne (ih (by omega) hL hD)
          · injection hstep with i1 i2 i3
            subst i1; subst i2; subst i3
            replace hL : mbLoop text oc cc n (pos + 1) (depth - 1) .normal = some e := hL
            rw [if_neg h1, if_neg h2, if_neg h3, if_neg h4, if_pos h5, if_neg h6] at hD
            subst h5
            obtain ⟨hlt2, -⟩ := mbLoop_bounds hL
            exact count_glue_close hpos (by omega) hne hdep (ih (by omega) hL hD)
          · injection hstep with i1 i2 i3
            subst i1; subst i2; subst i3
            replace hL : mbLoop text oc cc n (pos + 1) depth .normal = some e := hL
            rw [if_neg h1, if_neg h2, if_neg h3, if_neg h4, if_neg h5] at hD
            obtain ⟨hlt2, -⟩ := mbLoop_bounds hL
            exact count_glue_one hpos (by omega) h4 h5 (ih hdep hL hD)

/-- C9: scanner fidelity.  First, for any structural-macro delimiter
pair, a successful balanced scan over a text whose delimiter occurrences
all lie outside strings and comments captures a region with equal open
and close counts.  Second, in every scan step taken while the scanner is
in a string, line-comment, or block-comment state, the region is never
closed and the depth counter is unchanged. -/
theorem C9_scanner :
    (∀ (text : List Char) (i : Nat) (oc cc : Char) (inner : Bool) (e : Nat)
        (chunk : List Char),
      delimPair oc cc →
      matchBalanced text i oc cc inner = some (e, chunk) →
      delimsOutside text oc cc (text.length + 1) (i + 1) 1 .normal = true →
      chunk.count oc = chunk.count cc)
    ∧ (∀ (oc cc c : Char) (nxt : Option Char) (st : LexState) (depth : Nat),
        st ≠ .normal →
        ∃ st2 two, mbStep oc cc c nxt st depth = .cont st2 depth two) := by
  constructor
  · intro text i oc cc inner e chunk hpair hmb hD
    rcases hpair with ⟨rfl, rfl⟩ | ⟨rfl, rfl⟩ | ⟨rfl, rfl⟩ <;>
    · unfold matchBalanced at hmb
      split at hmb
      · rename_i c hi
        split at hmb
        · rename_i hc
          subst hc
          split at hmb
          · simp at hmb
          · rename_i e2 hloop
            simp only [Option.some_inj, Prod.mk.injEq] at hmb
            obtain ⟨rfl, rfl⟩ := hmb
            have hcount := mbLoop_count (by decide) (by decide) (by decide)
              (by decide) (by decide) (by decide) (by decide) (by decide)
              (by decide) (Nat.le_refl 1) hloop hD
            obtain ⟨hlt, hle⟩ := mbLoop_bounds hloop
            have hlast := mbLoop_last hloop
            cases inner with
            | false =>
              simp only [Bool.false_eq_true, if_false]
              rw [slice_cons text hi (by omega)]
              simp [List.count_cons]
              omega
            | true =>
              have hdec : slice text (i + 1) e2 =
                  slice text (i + 1) (e2 - 1) ++ [_] :=
                slice_snoc text hlast (by omega) (by omega)
              rw [hdec] at hcount
              simp [List.count_append] at hcount
              simp
              omega
        · simp at hmb
      · simp at hmb
  · intro oc cc c nxt st depth hst
    cases st with
    | normal => exact absurd rfl hst
    | instring q =>
      simp only [mbStep]
      by_cases hb : c = bslash
      · rw [if_pos hb]; exact ⟨_, _, rfl⟩
      · rw [if_neg hb]
        by_cases hq : c = q
        · rw [if_pos hq]; exact ⟨_, _, rfl⟩
        · rw [if_neg hq]; exact ⟨_, _, rfl⟩
    | lineComment =>
      simp only [mbStep]
      by_cases hn : c = '\n'
      · rw [if_pos hn]; exact ⟨_, _, rfl⟩
      · rw [if_neg hn]; exact ⟨_, _, rfl⟩
    | blockComment =>
      simp only [mbStep]
      by_cases hbe : (c = '*' && nxt == some '/') = true
      · rw [if_pos hbe]; exact ⟨_, _, rfl⟩
      · rw [if_neg hbe]; exact ⟨_, _, rfl⟩

/-- C9 witness: the scan of the bracketed text captures a region with
one open and one close delimiter, and a step taken inside a string
keeps the depth. -/
theorem C9_scanner_witness :
    ("(a)".toList.count '(' = "(a)".toList.count ')')
    ∧ (∃ st2 two, mbStep '(' ')' '(' none (.instring '"') 5 = .cont st2 5 two) :=
  ⟨C9_scanner.1 ("(a)".toList) 0 '(' ')' false 3 ("(a)".toList)
      (Or.inl ⟨rfl, rfl⟩) (by decide) (by decide),
    C9_scanner.2 '(' ')' '(' none (.instring '"') 5 (by decide)⟩

end Pycomby
